import Mathlib

set_option maxHeartbeats 1000000
set_option maxRecDepth 4000
set_option linter.unusedSectionVars false
set_option linter.unusedVariables false

/-!
Verification of the execution-environment resolution and sandboxed-process
preparation engine: a shallow embedding of the core logic of
`pants/core/util_rules/adhoc_process_support.py` and
`pants/core/goals/run.py`, with theorems settling the specification claims.
-/

namespace PantsAdhoc

/-! ### Association-list dictionaries (Python `dict`, insertion-ordered) -/

/-- A Python `dict` modelled as an insertion-ordered association list. -/
abbrev Dict (K V : Type) := List (K × V)

variable {K V : Type} [DecidableEq K] [DecidableEq V]

/-- Python `d.get(k)` / `d[k]` / `k in d`: the first binding of `k` in `d`
(in a real `dict` keys are unique, so "first" is "the"). -/
def dget : Dict K V → K → Option V
  | [], _ => none
  | (k2, v) :: rest, k => if k2 = k then some v else dget rest k

/-- Python `d[k] = v`: replace the existing binding in place, else append. -/
def dset : Dict K V → K → V → Dict K V
  | [], k, v => [(k, v)]
  | (k2, v2) :: rest, k, v =>
    if k2 = k then (k2, v) :: rest else (k2, v2) :: dset rest k v

/-- Embedding of `_safe_update` (adhoc_process_support.py:265-269):
`for k, v in d2.items(): if k in d1 and d1[k] != v: raise ValueError; d1[k] = v`. -/
def safeUpdate : Dict K V → Dict K V → Except Unit (Dict K V)
  | d1, [] => .ok d1
  | d1, (k, v) :: rest =>
    match dget d1 k with
    | some w => if w ≠ v then .error () else safeUpdate (dset d1 k v) rest
    | none => safeUpdate (dset d1 k v) rest

/-- Folding `_safe_update` over a list of maps starting from accumulator `acc`,
as the loop in `_resolve_runnable_dependencies` does. -/
def mergeFrom : Dict K V → List (Dict K V) → Except Unit (Dict K V)
  | acc, [] => .ok acc
  | acc, m :: ms =>
    match safeUpdate acc m with
    | .error e => .error e
    | .ok acc2 => mergeFrom acc2 ms

/-- Merging a collection of maps with `_safe_update`, starting from `{}`. -/
def mergeAll (ms : List (Dict K V)) : Except Unit (Dict K V) :=
  mergeFrom [] ms

/-- Key-wise union of a list of maps; a later map takes precedence
(matching Python, where a later `d1[k] = v` overwrites). -/
def unionGet : List (Dict K V) → K → Option V
  | [], _ => none
  | m :: ms, k =>
    match unionGet ms k with
    | some v => some v
    | none => dget m k

/-- The keys of `d` are pairwise distinct (true of every Python `dict`). -/
def keysNodup (d : Dict K V) : Prop := (d.map Prod.fst).Nodup

/-- Two maps never bind a shared key to two unequal values. -/
def pairCompat (m1 m2 : Dict K V) : Prop :=
  ∀ p ∈ m1, ∀ q ∈ m2, p.1 = q.1 → p.2 = q.2

/-- No key is bound to two unequal values across the collection of maps. -/
def Compatible (ms : List (Dict K V)) : Prop :=
  ∀ m1 ∈ ms, ∀ m2 ∈ ms, pairCompat m1 m2

/-- Compatibility of two maps, phrased through `dget`. -/
def dcompat (m1 m2 : Dict K V) : Prop :=
  ∀ (k : K) (v1 v2 : V), dget m1 k = some v1 → dget m2 k = some v2 → v1 = v2

/-- Whether an `Except` computation succeeded. -/
def exceptOk {E A : Type} : Except E A → Bool
  | .ok _ => true
  | .error _ => false

instance (d : Dict K V) : Decidable (keysNodup d) := by
  unfold keysNodup; infer_instance

instance (m1 m2 : Dict K V) : Decidable (pairCompat m1 m2) := by
  unfold pairCompat; infer_instance

instance (ms : List (Dict K V)) : Decidable (Compatible ms) := by
  unfold Compatible; infer_instance

/-! ### Basic dictionary lemmas -/

theorem dget_dset (d : Dict K V) (k k2 : K) (v : V) :
    dget (dset d k v) k2 = if k = k2 then some v else dget d k2 := by
  induction d with
  | nil => simp [dset, dget]
  | cons hd tl ih =>
    obtain ⟨k3, v3⟩ := hd
    by_cases h3 : k3 = k
    · subst h3
      by_cases h2 : k3 = k2
      · subst h2; simp [dset, dget]
      · simp [dset, dget, h2]
    · by_cases h2 : k3 = k2
      · subst h2
        have hk : ¬ k = k3 := fun h => h3 h.symm
        simp [dset, dget, h3, hk]
      · simp [dset, dget, h3, h2, ih]

theorem mem_of_dget {d : Dict K V} {k : K} {v : V}
    (h : dget d k = some v) : (k, v) ∈ d := by
  induction d with
  | nil => simp [dget] at h
  | cons hd tl ih =>
    obtain ⟨k2, v2⟩ := hd
    by_cases hk : k2 = k
    · subst hk
      simp [dget] at h
      subst h
      exact List.mem_cons_self _ _
    · simp [dget, hk] at h
      exact List.mem_cons_of_mem _ (ih h)

theorem dget_of_mem {d : Dict K V} {k : K} {v : V}
    (hnd : keysNodup d) (h : (k, v) ∈ d) : dget d k = some v := by
  induction d with
  | nil => simp at h
  | cons hd tl ih =>
    obtain ⟨k2, v2⟩ := hd
    have hnd2 : keysNodup tl := (List.nodup_cons.mp hnd).2
    rcases List.mem_cons.mp h with h1 | h1
    · rw [← h1]
      simp [dget]
    · have hk : ¬ k2 = k := by
        intro he
        subst he
        have : k2 ∈ tl.map Prod.fst := List.mem_map_of_mem Prod.fst h1
        exact (List.nodup_cons.mp hnd).1 this
      simp [dget, hk]
      exact ih hnd2 h1

theorem dget_none_of_forall {d : Dict K V} {k : K}
    (h : ∀ v, (k, v) ∉ d) : dget d k = none := by
  induction d with
  | nil => rfl
  | cons hd tl ih =>
    obtain ⟨k2, v2⟩ := hd
    by_cases hk : k2 = k
    · subst hk
      exact absurd (List.mem_cons_self _ _) (h v2)
    · simp [dget, hk]
      exact ih fun v hv => h v (List.mem_cons_of_mem _ hv)

theorem pairCompat_iff_dcompat {m1 m2 : Dict K V}
    (h1 : keysNodup m1) (h2 : keysNodup m2) :
    pairCompat m1 m2 ↔ dcompat m1 m2 := by
  constructor
  · intro hp k v1 v2 e1 e2
    exact hp (k, v1) (mem_of_dget e1) (k, v2) (mem_of_dget e2) rfl
  · intro hd p hp q hq he
    obtain ⟨k1, v1⟩ := p
    obtain ⟨k2, v2⟩ := q
    simp only at he
    subst he
    exact hd k1 v1 v2 (dget_of_mem h1 hp) (dget_of_mem h2 hq)

theorem dcompat_symm {m1 m2 : Dict K V} (h : dcompat m1 m2) : dcompat m2 m1 :=
  fun k v1 v2 e1 e2 => (h k v2 v1 e2 e1).symm

theorem dcompat_self (m : Dict K V) : dcompat m m := by
  intro k v1 v2 e1 e2
  rw [e1] at e2
  exact (Option.some.injEq _ _ ▸ e2)

/-! ### Success and result characterization of `_safe_update` -/

theorem safeUpdate_ok_dget {d2 : Dict K V} (h2 : keysNodup d2) :
    ∀ {d1 d : Dict K V}, safeUpdate d1 d2 = .ok d →
    ∀ k, dget d k = match dget d2 k with
      | some v => some v
      | none => dget d1 k := by
  induction d2 with
  | nil =>
    intro d1 d h k
    simp [safeUpdate] at h
    subst h
    simp [dget]
  | cons hd rest ih =>
    intro d1 d h k
    obtain ⟨k2, v⟩ := hd
    have hnd : keysNodup rest := (List.nodup_cons.mp h2).2
    have hk2 : k2 ∉ rest.map Prod.fst := (List.nodup_cons.mp h2).1
    have hrec : safeUpdate (dset d1 k2 v) rest = .ok d := by
      simp only [safeUpdate] at h
      rcases he : dget d1 k2 with _ | w
      · rw [he] at h; exact h
      · rw [he] at h
        by_cases hw : w = v
        · simp [hw] at h; exact h
        · simp [hw] at h
    have := ih hnd hrec k
    by_cases hkk : k2 = k
    · subst hkk
      have hr : dget rest k2 = none := by
        apply dget_none_of_forall
        intro v2 hv2
        exact hk2 (List.mem_map_of_mem Prod.fst hv2)
      rw [this, hr]
      simp [dget, dget_dset]
    · rw [this]
      simp only [dget, hkk, if_false]
      rcases dget rest k with _ | w
      · simp [dget_dset, fun h => hkk h]
      · rfl

theorem safeUpdate_isOk_iff {d2 : Dict K V} (h2 : keysNodup d2) :
    ∀ {d1 : Dict K V}, exceptOk (safeUpdate d1 d2) = true ↔ dcompat d1 d2 := by
  induction d2 with
  | nil =>
    intro d1
    simp [safeUpdate, exceptOk]
    intro k v1 v2 _ e2
    simp [dget] at e2
  | cons hd rest ih =>
    intro d1
    obtain ⟨k2, v⟩ := hd
    have hnd : keysNodup rest := (List.nodup_cons.mp h2).2
    have hk2 : k2 ∉ rest.map Prod.fst := (List.nodup_cons.mp h2).1
    have hr2 : dget rest k2 = none := by
      apply dget_none_of_forall
      intro v2 hv2
      exact hk2 (List.mem_map_of_mem Prod.fst hv2)
    constructor
    · intro hok k v1 v2 e1 e2
      simp only [safeUpdate] at hok
      rcases he : dget d1 k2 with _ | w
      · rw [he] at hok
        have hc := (ih hnd).mp hok
        by_cases hkk : k2 = k
        · subst hkk
          rw [he] at e1
          exact absurd e1 (by simp)
        · simp only [dget, hkk, if_false] at e2
          have := hc k v1 v2 (by rw [dget_dset]; simp [fun h => hkk h, e1]) e2
          exact this
      · rw [he] at hok
        by_cases hw : w = v
        · subst hw
          simp only [ne_eq, not_true_eq_false, if_false] at hok
          have hc := (ih hnd).mp hok
          by_cases hkk : k2 = k
          · subst hkk
            rw [he] at e1
            have hv1 : w = v1 := by simpa using e1
            have hv2 : w = v2 := by simpa [dget] using e2
            rw [← hv1, ← hv2]
          · simp only [dget, hkk, if_false] at e2
            exact hc k v1 v2 (by rw [dget_dset]; simp [fun h => hkk h, e1]) e2
        · simp [safeUpdate, hw, exceptOk] at hok
    · intro hc
      simp only [safeUpdate]
      rcases he : dget d1 k2 with _ | w
      · apply (ih hnd).mpr
        intro k v1 v2 e1 e2
        rw [dget_dset] at e1
        by_cases hkk : k2 = k
        · subst hkk
          rw [hr2] at e2
          exact absurd e2 (by simp)
        · simp [hkk] at e1
          exact hc k v1 v2 e1 (by simp [dget, hkk, e2])
      · have hw : w = v := by
          apply hc k2 w v he
          simp [dget]
        subst hw
        simp only [ne_eq, not_true_eq_false, if_false]
        apply (ih hnd).mpr
        intro k v1 v2 e1 e2
        rw [dget_dset] at e1
        by_cases hkk : k2 = k
        · subst hkk
          rw [hr2] at e2
          exact absurd e2 (by simp)
        · simp [hkk] at e1
          exact hc k v1 v2 e1 (by simp [dget, hkk, e2])

/-! ### Characterization of the conflict-checked merge of many maps -/

theorem mergeFrom_ok_dget :
    ∀ {ms : List (Dict K V)}, (∀ m ∈ ms, keysNodup m) →
    ∀ {acc d : Dict K V}, mergeFrom acc ms = .ok d →
    ∀ k, dget d k = match unionGet ms k with
      | some v => some v
      | none => dget acc k := by
  intro ms
  induction ms with
  | nil =>
    intro _ acc d h k
    simp [mergeFrom] at h
    subst h
    simp [unionGet]
  | cons m ms ih =>
    intro hnd acc d h k
    have hm : keysNodup m := hnd m (List.mem_cons_self _ _)
    have hms : ∀ m2 ∈ ms, keysNodup m2 := fun m2 h2 => hnd m2 (List.mem_cons_of_mem _ h2)
    simp only [mergeFrom] at h
    rcases he : safeUpdate acc m with e | acc2
    · rw [he] at h; exact absurd h (by simp)
    · rw [he] at h
      have h1 := ih hms h k
      have h2 := safeUpdate_ok_dget hm he k
      rw [h1]
      simp only [unionGet]
      rcases unionGet ms k with _ | w
      · rw [h2]
      · rfl

theorem mergeFrom_isOk_iff :
    ∀ {ms : List (Dict K V)}, (∀ m ∈ ms, keysNodup m) →
    ∀ {acc : Dict K V},
    (exceptOk (mergeFrom acc ms) = true ↔
      (∀ m ∈ ms, dcompat acc m) ∧ ∀ m1 ∈ ms, ∀ m2 ∈ ms, dcompat m1 m2) := by
  intro ms
  induction ms with
  | nil =>
    intro _ acc
    simp [mergeFrom, exceptOk]
  | cons m ms ih =>
    intro hnd acc
    have hm : keysNodup m := hnd m (List.mem_cons_self _ _)
    have hms : ∀ m2 ∈ ms, keysNodup m2 := fun m2 h2 => hnd m2 (List.mem_cons_of_mem _ h2)
    simp only [mergeFrom]
    rcases he : safeUpdate acc m with e | acc2
    · have hnc : ¬ dcompat acc m := by
        intro hc
        have := (safeUpdate_isOk_iff hm).mpr hc
        rw [he] at this
        simp [exceptOk] at this
      constructor
      · intro h; simp [exceptOk] at h
      · intro ⟨h1, _⟩
        exact absurd (h1 m (List.mem_cons_self _ _)) hnc
    · have hcm : dcompat acc m := by
        apply (safeUpdate_isOk_iff hm).mp
        rw [he]; rfl
      have hacc2 : ∀ k, dget acc2 k = match dget m k with
          | some v => some v
          | none => dget acc k := safeUpdate_ok_dget hm he
      have hsplit : ∀ m2, dcompat acc2 m2 ↔ (dcompat acc m2 ∧ dcompat m m2) := by
        intro m2
        constructor
        · intro h
          constructor
          · intro k v1 v2 e1 e2
            rcases hw : dget m k with _ | w
            · exact h k v1 v2 (by rw [hacc2 k, hw]; exact e1) e2
            · have hwv : w = v1 := (hcm k v1 w e1 hw).symm
              exact h k v1 v2 (by rw [hacc2 k, hw, hwv]) e2
          · intro k v1 v2 e1 e2
            exact h k v1 v2 (by rw [hacc2 k, e1]) e2
        · intro ⟨h1, h2⟩ k v1 v2 e1 e2
          rw [hacc2 k] at e1
          rcases hw : dget m k with _ | w
          · rw [hw] at e1
            exact h1 k v1 v2 e1 e2
          · rw [hw] at e1
            have : w = v1 := by simpa using e1
            subst this
            exact h2 k w v2 hw e2
      rw [ih hms]
      constructor
      · intro ⟨h1, h2⟩
        constructor
        · intro m2 hm2
          rcases List.mem_cons.mp hm2 with h3 | h3
          · rw [h3]; exact hcm
          · exact ((hsplit m2).mp (h1 m2 h3)).1
        · intro m1 hm1 m2 hm2
          rcases List.mem_cons.mp hm1 with h3 | h3 <;>
            rcases List.mem_cons.mp hm2 with h4 | h4
          · rw [h3, h4]; exact dcompat_self _
          · rw [h3]; exact ((hsplit m2).mp (h1 m2 h4)).2
          · rw [h4]; exact dcompat_symm ((hsplit m1).mp (h1 m1 h3)).2
          · exact h2 m1 h3 m2 h4
      · intro ⟨h1, h2⟩
        constructor
        · intro m2 hm2
          apply (hsplit m2).mpr
          constructor
          · exact h1 m2 (List.mem_cons_of_mem _ hm2)
          · exact h2 m (List.mem_cons_self _ _) m2 (List.mem_cons_of_mem _ hm2)
        · intro m1 hm1 m2 hm2
          exact h2 m1 (List.mem_cons_of_mem _ hm1) m2 (List.mem_cons_of_mem _ hm2)

theorem mergeAll_isOk_iff {ms : List (Dict K V)} (hnd : ∀ m ∈ ms, keysNodup m) :
    exceptOk (mergeAll ms) = true ↔ Compatible ms := by
  unfold mergeAll
  rw [mergeFrom_isOk_iff hnd]
  have hacc : ∀ m2 ∈ ms, dcompat ([] : Dict K V) m2 := by
    intro m2 _ k v1 v2 e1 _
    simp [dget] at e1
  constructor
  · intro ⟨_, h2⟩ m1 hm1 m2 hm2
    exact (pairCompat_iff_dcompat (hnd m1 hm1) (hnd m2 hm2)).mpr (h2 m1 hm1 m2 hm2)
  · intro h
    refine ⟨hacc, fun m1 hm1 m2 hm2 => ?_⟩
    exact (pairCompat_iff_dcompat (hnd m1 hm1) (hnd m2 hm2)).mp (h m1 hm1 m2 hm2)

theorem mergeAll_ok_dget {ms : List (Dict K V)} (hnd : ∀ m ∈ ms, keysNodup m)
    {d : Dict K V} (h : mergeAll ms = .ok d) (k : K) :
    dget d k = unionGet ms k := by
  have := mergeFrom_ok_dget hnd h k
  rw [this]
  rcases unionGet ms k with _ | w <;> simp [dget]

theorem unionGet_eq_none_iff {ms : List (Dict K V)} {k : K} :
    unionGet ms k = none ↔ ∀ m ∈ ms, dget m k = none := by
  induction ms with
  | nil => simp [unionGet]
  | cons m ms ih =>
    simp only [unionGet]
    rcases hu : unionGet ms k with _ | w
    · simp only [List.mem_cons]
      constructor
      · intro h m2 hm2
        rcases hm2 with h2 | h2
        · subst h2; exact h
        · exact ih.mp hu m2 h2
      · intro h
        exact h m (Or.inl rfl)
    · constructor
      · intro h; exact absurd h (by simp)
      · intro h
        have := ih.mpr fun m2 h2 => h m2 (List.mem_cons_of_mem _ h2)
        rw [hu] at this
        exact absurd this (by simp)

theorem unionGet_mem {ms : List (Dict K V)} {k : K} {v : V}
    (h : unionGet ms k = some v) : ∃ m ∈ ms, dget m k = some v := by
  induction ms with
  | nil => simp [unionGet] at h
  | cons m ms ih =>
    simp only [unionGet] at h
    rcases hu : unionGet ms k with _ | w
    · rw [hu] at h
      exact ⟨m, List.mem_cons_self _ _, h⟩
    · rw [hu] at h
      have hv : w = v := by simpa using h
      subst hv
      obtain ⟨m2, hm2, he⟩ := ih hu
      exact ⟨m2, List.mem_cons_of_mem _ hm2, he⟩

theorem unionGet_eq_some_of_mem {ms : List (Dict K V)} {k : K} {v : V}
    (hc : ∀ m1 ∈ ms, ∀ m2 ∈ ms, dcompat m1 m2)
    {m : Dict K V} (hm : m ∈ ms) (h : dget m k = some v) :
    unionGet ms k = some v := by
  induction ms with
  | nil => simp at hm
  | cons m0 ms ih =>
    simp only [unionGet]
    rcases hu : unionGet ms k with _ | w
    · rcases List.mem_cons.mp hm with h2 | h2
      · subst h2; exact h
      · have := unionGet_eq_none_iff.mp hu m h2
        rw [this] at h
        exact absurd h (by simp)
    · rcases List.mem_cons.mp hm with h2 | h2
      · subst h2
        obtain ⟨m2, hm2, he2⟩ := unionGet_mem hu
        have := hc m2 (List.mem_cons_of_mem _ hm2) m (List.mem_cons_self _ _) k w v he2 h
        rw [this]
      · have := ih (fun a ha b hb => hc a (List.mem_cons_of_mem _ ha) b (List.mem_cons_of_mem _ hb)) h2
        rw [hu] at this
        exact this

theorem unionGet_perm {ms ms2 : List (Dict K V)} (hperm : ms.Perm ms2)
    (hc : ∀ m1 ∈ ms, ∀ m2 ∈ ms, dcompat m1 m2) (k : K) :
    unionGet ms k = unionGet ms2 k := by
  have hc2 : ∀ m1 ∈ ms2, ∀ m2 ∈ ms2, dcompat m1 m2 := by
    intro m1 h1 m2 h2
    exact hc m1 (hperm.mem_iff.mpr h1) m2 (hperm.mem_iff.mpr h2)
  rcases hu : unionGet ms k with _ | v
  · have := unionGet_eq_none_iff.mp hu
    symm
    apply unionGet_eq_none_iff.mpr
    intro m hm
    exact this m (hperm.mem_iff.mpr hm)
  · obtain ⟨m, hm, he⟩ := unionGet_mem hu
    symm
    exact unionGet_eq_some_of_mem hc2 (hperm.mem_iff.mp hm) he

theorem compatible_perm {ms ms2 : List (Dict K V)} (hperm : ms.Perm ms2) :
    Compatible ms ↔ Compatible ms2 := by
  constructor <;> intro h m1 h1 m2 h2
  · exact h m1 (hperm.mem_iff.mpr h1) m2 (hperm.mem_iff.mpr h2)
  · exact h m1 (hperm.mem_iff.mp h1) m2 (hperm.mem_iff.mp h2)

/-- C1: merging any finite collection of immutable-input-digest (or append-only-cache)
maps with the pairwise-conflict rule of `_safe_update` succeeds exactly when no key is
bound to two unequal values across the maps; on success the result is the key-wise
union, and both the outcome and the resulting map are independent of the order in
which the maps are merged (equal values under a shared key are never a conflict). -/
theorem mergeAll_conflict_free_union_order_independent
    (ms ms2 : List (Dict K V))
    (hnodup : ∀ m ∈ ms, keysNodup m)
    (hperm : ms.Perm ms2) :
    (exceptOk (mergeAll ms) = true ↔ Compatible ms)
    ∧ (∀ d, mergeAll ms = .ok d → ∀ k, dget d k = unionGet ms k)
    ∧ (exceptOk (mergeAll ms) = exceptOk (mergeAll ms2))
    ∧ (∀ d d2, mergeAll ms = .ok d → mergeAll ms2 = .ok d2 →
        ∀ k, dget d k = dget d2 k) := by
  have hnodup2 : ∀ m ∈ ms2, keysNodup m := fun m hm => hnodup m (hperm.mem_iff.mpr hm)
  have hiff1 := mergeAll_isOk_iff hnodup
  have hiff2 := mergeAll_isOk_iff hnodup2
  refine ⟨hiff1, fun d h k => mergeAll_ok_dget hnodup h k, ?_, ?_⟩
  · have : (exceptOk (mergeAll ms) = true) ↔ (exceptOk (mergeAll ms2) = true) :=
      hiff1.trans ((compatible_perm hperm).trans hiff2.symm)
    rcases h1 : exceptOk (mergeAll ms) <;> rcases h2 : exceptOk (mergeAll ms2)
    · rfl
    · rw [h1, h2] at this; simp at this
    · rw [h1, h2] at this; simp at this
    · rfl
  · intro d d2 h1 h2 k
    have hcompat : Compatible ms := hiff1.mp (by rw [h1]; rfl)
    have hdc : ∀ m1 ∈ ms, ∀ m2 ∈ ms, dcompat m1 m2 := fun m1 hm1 m2 hm2 =>
      (pairCompat_iff_dcompat (hnodup m1 hm1) (hnodup m2 hm2)).mp (hcompat m1 hm1 m2 hm2)
    rw [mergeAll_ok_dget hnodup h1 k, mergeAll_ok_dget hnodup2 h2 k]
    exact unionGet_perm hperm hdc k

/-- Witness for C1 at a concrete pair of merge orders: the maps
`{1 ↦ 10}` and `{2 ↦ 20, 1 ↦ 10}` share key `1` with equal values. -/
theorem mergeAll_conflict_free_witness :
    (exceptOk (mergeAll [[(1, 10)], [(2, 20), (1, 10)]]) = true ↔
        Compatible [[(1, 10)], [(2, 20), (1, 10)]])
    ∧ (∀ d, mergeAll [[(1, 10)], [(2, 20), (1, 10)]] = .ok d →
        ∀ k, dget d k = unionGet [[(1, 10)], [(2, 20), (1, 10)]] k)
    ∧ (exceptOk (mergeAll [[(1, 10)], [(2, 20), (1, 10)]]) =
        exceptOk (mergeAll [[(2, 20), (1, 10)], [(1, 10)]]))
    ∧ (∀ d d2, mergeAll [[(1, 10)], [(2, 20), (1, 10)]] = .ok d →
        mergeAll [[(2, 20), (1, 10)], [(1, 10)]] = .ok d2 →
        ∀ k : Nat, dget d k = dget d2 k) :=
  mergeAll_conflict_free_union_order_independent
    [[(1, 10)], [(2, 20), (1, 10)]] [[(2, 20), (1, 10)], [(1, 10)]]
    (by decide) (by decide)

/-! ### Content-addressed digests

The content store is an external collaborator; per the spec a `ContentDigest` is an
opaque handle to an immutable file tree, so a digest is modelled concretely as the
list of files in its tree. -/

/-- Structure `FileContent(path, content, is_executable)` from `pants.engine.fs`. -/
structure FileContent where
  path : String
  content : String
  is_executable : Bool
deriving DecidableEq, Repr

/-- A content digest, modelled as the file tree it addresses. -/
abbrev Digest := List FileContent

/-- Modelled from the spec: `DigestCreateFromFiles(files[]) -> ContentDigest`
(the engine rule behind `CreateDigest` is not part of the given sources). -/
def createDigest (files : List FileContent) : Digest := files

/-- Modelled from the spec: `DigestMerge(digests[]) -> ContentDigest`
(the engine rule behind `MergeDigests` is not part of the given sources). -/
def mergeDigests (ds : List Digest) : Digest := ds.flatten

/-- Modelled from the spec: the fingerprint of a content-addressed digest — a string
determined by the contents of the digest (the real hash lives in the external store). -/
def digestFingerprint (d : Digest) : String :=
  (d.map fun f =>
      toString f.path.length ++ "_" ++ f.path ++ "_" ++
        toString f.content.length ++ "_" ++ f.content ++
        (if f.is_executable then "_x" else "_o")).foldl (· ++ ·) "h"

/-- Dropping the list `p` from the front of `s`; `none` if `p` is not a prefix. -/
def dropPre : List Char → List Char → Option (List Char)
  | [], s => some s
  | _ :: _, [] => none
  | c :: cs, x :: xs => if c = x then dropPre cs xs else none

/-- Whether `p` is a prefix of `s`, via `dropPre`. -/
def hasPre (p s : String) : Bool := (dropPre p.toList s.toList).isSome

/-- Modelled from the spec: `DigestStripPrefix(digest, prefix) -> ContentDigest`
(the engine rule behind `RemovePrefix` is not part of the given sources): every
path in the tree loses the leading `prefix ++ "/"` component; an empty prefix is
the identity. -/
def removePrefixDigest (d : Digest) (p : String) : Digest :=
  if p = "" then d
  else d.map fun f =>
    match dropPre (p ++ "/").toList f.path.toList with
    | some rest => { f with path := String.mk rest }
    | none => f

theorem dropPre_append (p s : List Char) : dropPre p (p ++ s) = some s := by
  induction p with
  | nil => rfl
  | cons c cs ih => simp [dropPre, ih]

theorem dropPre_none {p s : List Char} (h : dropPre p s = none) :
    ∀ r, s ≠ p ++ r := by
  intro r he
  rw [he, dropPre_append] at h
  exact absurd h (by simp)

/-! ### Python string helpers: `shlex.quote`, `os.path.join`, `textwrap.dedent` -/

/-- The single-quote character, code point 39 (written by code point to keep the
sources free of quote characters). -/
def sq : Char := Char.ofNat 39

/-- The string consisting of the single quote character. -/
def sqs : String := String.singleton sq

/-- The newline character. -/
def nlChar : Char := Char.ofNat 10

/-- A character `shlex.quote` considers safe: the unsafe-character pattern (ASCII mode)
finds nothing, i.e. every character is ASCII alphanumeric, `_`, or one of
`@` `%` `+` `=` `:` `,` `.` `/` `-`. -/
def shlexSafe (c : Char) : Bool :=
  (c.isAlphanum && c.toNat < 128) || "_@%+=:,./-".toList.contains c

/-- Embedding of Python `shlex.quote`: empty strings become `''`; strings of safe
characters are returned unchanged; otherwise the string is wrapped in single
quotes, with every inner quote character replaced by the five-character
quote, double-quote, quote, double-quote, quote sequence. -/
def shlexQuote (s : String) : String :=
  if s = "" then sqs ++ sqs
  else if s.toList.all shlexSafe then s
  else sqs ++ String.mk (s.toList.flatMap fun c =>
    if c = sq then [sq, Char.ofNat 34, sq, Char.ofNat 34, sq] else [c]) ++ sqs

/-- Python `s.startswith(p)` (computable list form of `String.startsWith`). -/
def strStartsWith (s p : String) : Bool := p.toList.isPrefixOf s.toList

/-- Python `s.endswith(p)` (computable list form of `String.endsWith`). -/
def strEndsWith (s p : String) : Bool := p.toList.isSuffixOf s.toList

/-- Embedding of Python `os.path.join(a, b)` for two components: a second component
that starts with the separator wins outright; otherwise it is appended, inserting a
separator unless `a` is empty or already ends with one. -/
def osPathJoin (a b : String) : String :=
  if strStartsWith b "/" then b
  else if a = "" then b
  else if strEndsWith a "/" then a ++ b
  else a ++ "/" ++ b

/-- Line splitting on the newline character (Python `str.split("\n")`). -/
def lineSplit : List Char → List (List Char)
  | [] => [[]]
  | c :: cs =>
    if c = nlChar then [] :: lineSplit cs
    else
      match lineSplit cs with
      | [] => [[c]]
      | l :: ls => (c :: l) :: ls

/-- Joining lines with newline characters (inverse of `lineSplit`). -/
def lineJoin : List (List Char) → List Char
  | [] => []
  | [l] => l
  | l :: ls => l ++ nlChar :: lineJoin ls

/-- A space or tab, the characters `textwrap.dedent` treats as indentation. -/
def isIndentChar (c : Char) : Bool := c = Char.ofNat 32 || c = Char.ofNat 9

/-- A line consisting solely of whitespace (matched by `^[ \t]+$`). -/
def isWsOnly (l : List Char) : Bool := !l.isEmpty && l.all isIndentChar

/-- A line containing at least one non-indentation character. -/
def hasContent (l : List Char) : Bool := l.any fun c => !isIndentChar c

/-- The leading run of indentation characters of a line. -/
def leadingWs (l : List Char) : List Char := l.takeWhile isIndentChar

/-- Longest common prefix of two character lists. -/
def commonPre : List Char → List Char → List Char
  | x :: xs, y :: ys => if x = y then x :: commonPre xs ys else []
  | _, _ => []

/-- Embedding of Python `textwrap.dedent`: whitespace-only lines are emptied, the
longest common leading-whitespace margin of the remaining non-empty lines is
computed, and (when non-empty) that margin is stripped from the front of every
line that carries it. -/
def dedent (text : List Char) : List Char :=
  let lines := (lineSplit text).map fun l => if isWsOnly l then [] else l
  let indents := (lines.filter hasContent).map leadingWs
  let margin :=
    match indents with
    | [] => []
    | i :: is => is.foldl commonPre i
  let lines2 :=
    if margin.isEmpty then lines
    else lines.map fun l =>
      if margin.isPrefixOf l then l.drop margin.length else l
  lineJoin lines2

/-! ### Addresses and working-directory resolution -/

/-- A target address; `spec_path` is the source directory of the owning target. -/
structure Address where
  spec_path : String
deriving DecidableEq, Repr

/-- Embedding of `_parse_relative_directory` (adhoc_process_support.py:402-417). -/
def parseRelativeDirectory (workdir_in : String) (relative_to : Sum Address String) : String :=
  let reldir :=
    match relative_to with
    | Sum.inl addr => addr.spec_path
    | Sum.inr s => s
  if workdir_in = "." then reldir
  else if strStartsWith workdir_in "./" then osPathJoin reldir (workdir_in.drop 2)
  else if strStartsWith workdir_in "/" then workdir_in.drop 1
  else workdir_in

/-! ### The runnable-dependency shim builder -/

/-- Class `runnable` (adhoc_process_support.py:86-96): a named runnable dependency. -/
structure RunnableDecl where
  name : String
  address : String
deriving DecidableEq, Repr

/-- Class `RunInSandboxRequest` (run.py:113-155): a sandbox-ready run specification. -/
structure RunInSandboxRequest where
  digest : Digest
  args : List String
  extra_env : Dict String String
  immutable_input_digests : Option (Dict String Digest)
  append_only_caches : Option (Dict String String)
deriving DecidableEq, Repr

/-- Class `RunnableDependencies` (adhoc_process_support.py:99-103). -/
structure RunnableDependencies where
  path_component : String
  immutable_input_digests : Dict String Digest
  append_only_caches : Dict String String
deriving DecidableEq, Repr

/-- Python `sep.join(parts)`. -/
def strJoin (sep : String) : List String → String
  | [] => ""
  | [x] => x
  | x :: xs => x ++ sep ++ strJoin sep xs

/-- Python `x or {}` on an optional mapping. -/
def optDict {K V : Type} : Option (Dict K V) → Dict K V
  | none => []
  | some d => d

/-- The `" ".join(shlex.quote(arg) for arg in args)` of `_runnable_dependency_shim`. -/
def shimBinary (args : List String) : String :=
  strJoin " " (args.map shlexQuote)

/-- The `"\n".join(f"export {shlex.quote(key)}={shlex.quote(value)}" ...)` of
`_runnable_dependency_shim`. -/
def shimEnvStr (extra_env : Dict String String) : String :=
  strJoin "\n"
    (extra_env.map fun kv => "export " ++ shlexQuote kv.1 ++ "=" ++ shlexQuote kv.2)

/-- Eight spaces: the indentation of the f-string source lines of the shim template. -/
def ind8 : List Char := List.replicate 8 (Char.ofNat 32)

/-- The formatted (pre-`dedent`) shim template of `_runnable_dependency_shim`
(adhoc_process_support.py:280-286): three eight-space-indented lines
`#!{bash}`, `{env_str}`, `exec {binary} "$@"`, then the indented closing line. -/
def shimRaw (bash env_str binary : String) : List Char :=
  ind8 ++ "#!".toList ++ bash.toList ++ [nlChar]
    ++ ind8 ++ env_str.toList ++ [nlChar]
    ++ ind8 ++ "exec ".toList ++ binary.toList ++ " \"$@\"".toList ++ [nlChar]
    ++ ind8

/-- Embedding of `_runnable_dependency_shim` (adhoc_process_support.py:272-286). -/
def runnableDependencyShim (bash : String) (args : List String)
    (extra_env : Dict String String) : String :=
  String.mk (dedent (shimRaw bash (shimEnvStr extra_env) (shimBinary args)))

/-- The errors `_resolve_runnable_dependencies` can raise. -/
inductive ResolveErr
  | incompatibleEnvironments
deriving DecidableEq, Repr

/-- The message attached to each error of the taxonomy. -/
def ResolveErr.message : ResolveErr → String
  | .incompatibleEnvironments =>
      "One or more runnable dependencies have mutually incompatible environments."

/-- Accumulator state of the loop in `_resolve_runnable_dependencies`. -/
structure ShimState where
  digests : List Digest
  shims : List FileContent
  imm : Dict String Digest
  caches : Dict String String
deriving DecidableEq, Repr

/-- The `for dep, runnable in zip(deps, runnables)` loop of
`_resolve_runnable_dependencies` (adhoc_process_support.py:225-242): collect each
digest and shim of each runnable, and conflict-merge its extra immutable input digests
and append-only caches, converting any conflict into the taxonomy error. -/
def shimLoop (bash : String) :
    List (RunnableDecl × RunInSandboxRequest) → ShimState → Except ResolveErr ShimState
  | [], st => .ok st
  | (dep, r) :: rest, st =>
    let shim : FileContent :=
      ⟨dep.name, runnableDependencyShim bash r.args r.extra_env, true⟩
    match safeUpdate st.imm (optDict r.immutable_input_digests) with
    | .error _ => .error .incompatibleEnvironments
    | .ok imm2 =>
      match safeUpdate st.caches (optDict r.append_only_caches) with
      | .error _ => .error .incompatibleEnvironments
      | .ok caches2 =>
        shimLoop bash rest
          ⟨st.digests ++ [r.digest], st.shims ++ [shim], imm2, caches2⟩

/-- Embedding of `_resolve_runnable_dependencies` (adhoc_process_support.py:195-258),
with the externally-resolved run specifications passed in (`runnables[i]` is the
sandbox run spec resolved for `deps[i]`). -/
def resolveRunnableDependencies (bash : String) (deps : List RunnableDecl)
    (runnables : List RunInSandboxRequest) :
    Except ResolveErr (Digest × RunnableDependencies) :=
  match shimLoop bash (deps.zip runnables) ⟨[], [], [], []⟩ with
  | .error e => .error e
  | .ok st =>
    let digest := mergeDigests st.digests
    let shim_digest := createDigest st.shims
    let shim_digest_path := "shims_" ++ digestFingerprint shim_digest
    .ok (digest,
      ⟨shim_digest_path, dset st.imm shim_digest_path shim_digest, st.caches⟩)

/-! ### Sandbox process preparation -/

/-- Class `Process` (the fields used by `_output_at_build_root` and
`prepare_adhoc_process`). -/
structure Process where
  argv : List String
  description : String
  env : Dict String String
  input_digest : Digest
  output_directories : List String
  output_files : List String
  timeout_seconds : Option Int
  working_directory : Option String
  append_only_caches : Dict String String
  immutable_input_digests : Dict String Digest
deriving DecidableEq, Repr

/-- Embedding of `_output_at_build_root` (adhoc_process_support.py:379-399). -/
def outputAtBuildRoot (process : Process) (bashPath : String) : Process :=
  let working_directory := process.working_directory.getD ""
  let output_directories :=
    if working_directory ≠ "" then
      process.output_directories.map (osPathJoin working_directory)
    else process.output_directories
  let output_files :=
    if working_directory ≠ "" then
      process.output_files.map (osPathJoin working_directory)
    else process.output_files
  let cd :=
    if working_directory ≠ "" then
      "cd " ++ shlexQuote working_directory ++ " && "
    else ""
  let shlexed_argv := strJoin " " (process.argv.map shlexQuote)
  let new_argv := [bashPath, "-c", cd ++ shlexed_argv]
  { process with
      argv := new_argv
      working_directory := none
      output_directories := output_directories
      output_files := output_files }

/-- Class `AdhocProcessRequest` (adhoc_process_support.py:47-63). -/
structure AdhocProcessRequest where
  description : String
  address : Address
  working_directory : String
  root_output_directory : String
  argv : List String
  timeout : Option Int
  input_digest : Digest
  immutable_input_digests : Option (Dict String Digest)
  append_only_caches : Option (Dict String String)
  output_files : List String
  output_directories : List String
  fetch_env_vars : List String
  supplied_env_var_values : Option (Dict String String)
  log_on_process_errors : Option (Dict Int String)
  log_output : Bool
deriving DecidableEq, Repr

/-- The completed result of executing a process in the sandbox
(`FallibleProcessResult`): any exit code, captured output, raw output digest. -/
structure FallibleProcessResult where
  exit_code : Int
  stdout : String
  stderr : String
  output_digest : Digest
deriving DecidableEq, Repr

/-- Class `AdhocProcessResult` (adhoc_process_support.py:66-69): the process result plus
the digest shifted to exclude the working-directory/root-output prefix. -/
structure AdhocProcessResult where
  process_result : FallibleProcessResult
  adjusted_digest : Digest
deriving DecidableEq, Repr

/-- Modelled from the spec: the engine rule converting a completed
`FallibleProcessResult` into a `ProcessResult` (requested by `run_adhoc_process`
via `Get(ProcessResult, ...)`) is not part of the given sources; per the spec a
nonzero exit is "a normal `Completed` outcome, not an error", so the conversion
carries the completed result through for every exit code. -/
def fallibleToProcessResult (r : FallibleProcessResult) : FallibleProcessResult := r

/-- The root-output prefix `run_adhoc_process` strips: `root_output_directory`
resolved relative to the resolved working directory
(adhoc_process_support.py:316-319). -/
def resolvedRootOutput (request : AdhocProcessRequest) : String :=
  parseRelativeDirectory request.root_output_directory
    (Sum.inr (parseRelativeDirectory request.working_directory
      (Sum.inl request.address)))

/-- Embedding of `run_adhoc_process` (adhoc_process_support.py:289-323), given the
completed execution result; returns the emitted log messages alongside the value.
Nonzero exits flow through; only the configured per-exit-code message (if any and
non-empty, per Python truthiness) and the optional output echo are logged. -/
def runAdhocProcess (request : AdhocProcessRequest)
    (fallible_result : FallibleProcessResult) : List String × AdhocProcessResult :=
  let log_on_errors := optDict request.log_on_process_errors
  let error_to_log := dget log_on_errors fallible_result.exit_code
  let logs1 :=
    match error_to_log with
    | some msg => if msg ≠ "" then [msg] else []
    | none => []
  let result := fallibleToProcessResult fallible_result
  let logs2 :=
    if request.log_output then
      (if result.stdout ≠ "" then [result.stdout] else [])
        ++ (if result.stderr ≠ "" then [result.stderr] else [])
    else []
  let adjusted := removePrefixDigest result.output_digest (resolvedRootOutput request)
  (logs1 ++ logs2, ⟨result, adjusted⟩)

/-! ### Capability resolution: `_find_what_to_run` (run.py:226-276) -/

/-- A candidate target, identified opaquely. -/
abbrev Target := Nat

/-- A run-capability field-set; `secondary_fields` records, per field of the
field-set, whether that field derives from `SecondaryOwnerMixin`. -/
structure RunFieldSet where
  label : Nat
  secondary_fields : List Bool
deriving DecidableEq, Repr

/-- The partition predicate of `_find_what_to_run` (run.py:243-248): a field-set
is primary iff none of its fields is a `SecondaryOwnerMixin`. -/
def isPrimaryFS (fs : RunFieldSet) : Bool := !(fs.secondary_fields.any fun b => b)

/-- Class `RankedFieldSets` (run.py:212-214). -/
structure RankedFieldSets where
  primary : List RunFieldSet
  secondary : List RunFieldSet
deriving DecidableEq, Repr

/-- Helper `_partition` as applied in `_find_what_to_run`: the field-sets with no
secondary-owner field, then the rest, order preserved. -/
def rankFieldSets (fss : List RunFieldSet) : RankedFieldSets :=
  ⟨fss.filter isPrimaryFS, fss.filter fun fs => !(isPrimaryFS fs)⟩

/-- The failures `_find_what_to_run` can produce: `TooManyTargetsException`,
`AmbiguousImplementationsException`, the no-applicable-targets error raised by
the framework for an empty selection, and the out-of-range access were the
field-set list of the chosen target empty. -/
inductive RunErr
  | tooManyTargets
  | ambiguousImplementations
  | noApplicableTargets
  | indexOutOfRange
deriving DecidableEq, Repr

/-- The `for target, field_sets in targets_to_valid_field_sets.mapping.items()`
loop of `_find_what_to_run` (run.py:240-263): track one "the" target, replacing
it when the newcomer has a primary field-set and the tracked one does not, and
failing with `TooManyTargetsException` when the newcomer and the tracked target
both have primary field-sets or both have secondary field-sets. -/
def findLoop : List (Target × List RunFieldSet) → Option (Target × RankedFieldSets) →
    Except RunErr (Target × RankedFieldSets)
  | [], st =>
    match st with
    | none => .error .noApplicableTargets
    | some p => .ok p
  | (t, fss) :: rest, st =>
    let rfs := rankFieldSets fss
    match st with
    | none => findLoop rest (some (t, rfs))
    | some (pt, prfs) =>
      if rfs.primary ≠ [] ∧ prfs.primary = [] then
        findLoop rest (some (t, rfs))
      else if (rfs.primary ≠ [] ∧ prfs.primary ≠ []) ∨
          (rfs.secondary ≠ [] ∧ prfs.secondary ≠ []) then
        .error .tooManyTargets
      else
        findLoop rest (some (pt, prfs))

/-- The final step of `_find_what_to_run` (run.py:264-276): use the chosen
primary field-sets of the chosen target if non-empty, else its secondary ones; more than one
remaining candidate is the `AmbiguousImplementationsException`. -/
def chooseFieldSet (pt : Target) (prfs : RankedFieldSets) :
    Except RunErr (RunFieldSet × Target) :=
  let field_sets := if prfs.primary ≠ [] then prfs.primary else prfs.secondary
  if field_sets.length > 1 then .error .ambiguousImplementations
  else
    match field_sets with
    | [] => .error .indexOutOfRange
    | fs :: _ => .ok (fs, pt)

/-- Embedding of `_find_what_to_run` (run.py:226-276) over the mapping from
candidate root targets to their applicable run field-sets. -/
def findWhatToRun (mapping : List (Target × List RunFieldSet)) :
    Except RunErr (RunFieldSet × Target) :=
  match findLoop mapping none with
  | .error e => .error e
  | .ok (pt, prfs) => chooseFieldSet pt prfs

/-! ### Claim C6: working-directory resolution -/

/-- C6: for every working-directory string and owning address,
`_parse_relative_directory` resolves `.` to the source directory of the owning address
(its `spec_path`), `./x` to that directory joined with the remainder `x` after
`./`, a string starting with the path separator `/` to the same string with the
leading separator stripped (never treated as filesystem-absolute), and any other
string to itself verbatim. -/
theorem parseRelativeDirectory_cases (w : String) (addr : Address) :
    (w = "." → parseRelativeDirectory w (Sum.inl addr) = addr.spec_path)
    ∧ (w ≠ "." → strStartsWith w "./" →
        parseRelativeDirectory w (Sum.inl addr) =
          osPathJoin addr.spec_path (w.drop 2))
    ∧ (w ≠ "." → ¬ strStartsWith w "./" → strStartsWith w "/" →
        parseRelativeDirectory w (Sum.inl addr) = w.drop 1)
    ∧ (w ≠ "." → ¬ strStartsWith w "./" → ¬ strStartsWith w "/" →
        parseRelativeDirectory w (Sum.inl addr) = w) := by
  refine ⟨fun h1 => ?_, fun h1 h2 => ?_, fun h1 h2 h3 => ?_, fun h1 h2 h3 => ?_⟩
  · simp [parseRelativeDirectory, h1]
  · simp [parseRelativeDirectory, h1, h2]
  · simp [parseRelativeDirectory, h1, h2, h3]
  · simp [parseRelativeDirectory, h1, h2, h3]

/-- Witness for C6 at the four concrete kinds of working-directory strings. -/
theorem parseRelativeDirectory_cases_witness :
    parseRelativeDirectory "." (Sum.inl ⟨"src/app"⟩) = "src/app"
    ∧ parseRelativeDirectory "./x" (Sum.inl ⟨"src/app"⟩) =
        osPathJoin "src/app" ("./x".drop 2)
    ∧ parseRelativeDirectory "/a/b" (Sum.inl ⟨"src/app"⟩) = "/a/b".drop 1
    ∧ parseRelativeDirectory "sub/dir" (Sum.inl ⟨"src/app"⟩) = "sub/dir" :=
  ⟨(parseRelativeDirectory_cases "." ⟨"src/app"⟩).1 rfl,
   (parseRelativeDirectory_cases "./x" ⟨"src/app"⟩).2.1 (by decide) (by decide),
   (parseRelativeDirectory_cases "/a/b" ⟨"src/app"⟩).2.2.1
     (by decide) (by decide) (by decide),
   (parseRelativeDirectory_cases "sub/dir" ⟨"src/app"⟩).2.2.2
     (by decide) (by decide) (by decide)⟩

/-! ### Claim C7: root-rewrite of a process with a working directory -/

/-- C7 (amended): for a process with non-empty working directory `w`,
`_output_at_build_root` replaces the argv with the three-element form
`(shell path, "-c", cd-string)`, clears the structured working-directory field
and prefixes every declared output file and directory with `w` (via path join);
the cd-string is `"cd "`, the shlex-quoted `w`, `" && "` and the shlex-quoted,
space-joined original argv — and for `w = "src/app"`, argv `["echo", "hi"]` it
is exactly `cd src/app && echo hi`, since shlex quoting leaves strings made of
safe characters unquoted (not the single-quoted form the spec scenario
writes). -/
theorem outputAtBuildRoot_rewrites (process : Process) (bashPath : String)
    (w : String) (hw : process.working_directory = some w) (hne : w ≠ "") :
    outputAtBuildRoot process bashPath =
      { process with
          argv := [bashPath, "-c",
            "cd " ++ shlexQuote w ++ " && " ++
              strJoin " " (process.argv.map shlexQuote)]
          working_directory := none
          output_directories := process.output_directories.map (osPathJoin w)
          output_files := process.output_files.map (osPathJoin w) }
    ∧ "cd " ++ shlexQuote "src/app" ++ " && " ++
        strJoin " " (["echo", "hi"].map shlexQuote) = "cd src/app && echo hi" := by
  constructor
  · simp [outputAtBuildRoot, hw, hne]
  · decide

/-- The concrete process of the root-rewrite scenario of the spec. -/
def procEx : Process :=
  ⟨["echo", "hi"], "", [], [], [], [], none, some "src/app", [], []⟩

/-- Witness for C7 at the scenario process of the spec. -/
theorem outputAtBuildRoot_rewrites_witness :
    outputAtBuildRoot procEx "/bin/bash" =
      { procEx with
          argv := ["/bin/bash", "-c",
            "cd " ++ shlexQuote "src/app" ++ " && " ++
              strJoin " " (procEx.argv.map shlexQuote)]
          working_directory := none
          output_directories := procEx.output_directories.map (osPathJoin "src/app")
          output_files := procEx.output_files.map (osPathJoin "src/app") }
    ∧ "cd " ++ shlexQuote "src/app" ++ " && " ++
        strJoin " " (["echo", "hi"].map shlexQuote) = "cd src/app && echo hi" :=
  outputAtBuildRoot_rewrites procEx "/bin/bash" "src/app" rfl (by decide)

/-- C7 counterexample: the produced shell string for working directory `src/app`
and argv `["echo", "hi"]` is `cd src/app && echo hi`, not the single-quoted
form the spec writes — shlex quoting adds no quotes around `src/app`. -/
theorem outputAtBuildRoot_quoting_counterexample :
    (outputAtBuildRoot
        ⟨["echo", "hi"], "", [], [], [], [], none, some "src/app", [], []⟩
        "/bin/bash").argv
      = ["/bin/bash", "-c", "cd src/app && echo hi"]
    ∧ "cd src/app && echo hi" ≠
        "cd " ++ sqs ++ "src/app" ++ sqs ++ " && echo hi" := by
  constructor
  · decide
  · decide

/-! ### Claim C5: nonzero exit is a normal completed outcome -/

/-- C5: for a process that launched and ran to completion, a nonzero exit code is
a normal completed outcome, not an error: `run_adhoc_process` returns an
`AdhocProcessResult` carrying the completed result and the adjusted digest, after
emitting the configured per-exit-code log message when one is configured for the
observed exit code (and non-empty, per Python truthiness), rather than
propagating a failure. -/
theorem runAdhocProcess_nonzero_exit_is_normal (request : AdhocProcessRequest)
    (res : FallibleProcessResult) (hexit : res.exit_code ≠ 0) :
    (runAdhocProcess request res).2 =
      ⟨res, removePrefixDigest res.output_digest (resolvedRootOutput request)⟩
    ∧ (∀ msg, dget (optDict request.log_on_process_errors) res.exit_code = some msg →
        msg ≠ "" → msg ∈ (runAdhocProcess request res).1) := by
  constructor
  · rfl
  · intro msg hm hne
    simp [runAdhocProcess, fallibleToProcessResult, hm, hne]

/-- The concrete request of the C5 witness: exit code `3` is configured to log
`boom`. -/
def reqEx : AdhocProcessRequest :=
  ⟨"a command", ⟨"src/app"⟩, ".", ".", ["x"], none, [], none, none,
    [], [], [], none, some [(3, "boom")], false⟩

/-- The concrete completed result of the C5 witness: exit code `3`. -/
def resEx : FallibleProcessResult := ⟨3, "", "", []⟩

/-- Witness for C5 at a completed process with exit code `3`. -/
theorem runAdhocProcess_nonzero_exit_witness :
    (runAdhocProcess reqEx resEx).2 =
      ⟨resEx, removePrefixDigest resEx.output_digest (resolvedRootOutput reqEx)⟩
    ∧ (∀ msg, dget (optDict reqEx.log_on_process_errors) resEx.exit_code = some msg →
        msg ≠ "" → msg ∈ (runAdhocProcess reqEx resEx).1) :=
  runAdhocProcess_nonzero_exit_is_normal reqEx resEx (by decide)

/-! ### Claims C2 and C3: capability resolution -/

theorem chooseFieldSet_ne_tooMany (pt : Target) (prfs : RankedFieldSets) :
    chooseFieldSet pt prfs ≠ .error .tooManyTargets := by
  simp only [chooseFieldSet]
  split
  · split
    · simp
    · split <;> simp
  · split
    · simp
    · split <;> simp

theorem chooseFieldSet_single_primary (pt : Target) (prfs : RankedFieldSets)
    (p : RunFieldSet) (hp : prfs.primary = [p]) :
    chooseFieldSet pt prfs = .ok (p, pt) := by
  simp [chooseFieldSet, hp]

/-- While the tracked target has a primary field-set and no secondary field-set,
candidates with no primary field-set neither replace it nor cause a failure. -/
theorem findLoop_keep (rest : List (Target × List RunFieldSet)) :
    ∀ (pt : Target) (prfs : RankedFieldSets),
    (∀ e ∈ rest, (rankFieldSets e.2).primary = []) →
    prfs.primary ≠ [] → prfs.secondary = [] →
    findLoop rest (some (pt, prfs)) = .ok (pt, prfs) := by
  induction rest with
  | nil => intro pt prfs _ _ _; rfl
  | cons e rest ih =>
    intro pt prfs hall hp hs
    obtain ⟨t2, f2⟩ := e
    have h2 : (rankFieldSets f2).primary = [] := hall (t2, f2) (List.mem_cons_self _ _)
    have hc1 : ¬ ((rankFieldSets f2).primary ≠ [] ∧ prfs.primary = []) :=
      fun hc => hc.1 h2
    have hc2 : ¬ (((rankFieldSets f2).primary ≠ [] ∧ prfs.primary ≠ []) ∨
        ((rankFieldSets f2).secondary ≠ [] ∧ prfs.secondary ≠ [])) := by
      rintro (⟨hc, _⟩ | ⟨_, hc⟩)
      · exact hc h2
      · exact hc hs
    simp only [findLoop]
    rw [if_neg hc1, if_neg hc2]
    exact ih pt prfs (fun e2 he2 => hall e2 (List.mem_cons_of_mem _ he2)) hp hs

/-- C2 (amended): when the selected target satisfies exactly one primary field-set
and every other candidate has only secondary field-sets, resolution returns that
primary field-set paired with that target — provided at most one other candidate
precedes the selected target in iteration order and, when the selected target
also carries secondary field-sets, no other candidate follows it (otherwise the
tie test of the loop fires on the secondary field-sets and raises the too-many-targets
failure instead, contrary to the original claim). -/
theorem findWhatToRun_unique_primary
    (before after : List (Target × List RunFieldSet))
    (t : Target) (fss : List RunFieldSet) (p : RunFieldSet)
    (hp : (rankFieldSets fss).primary = [p])
    (hbefore : ∀ e ∈ before, (rankFieldSets e.2).primary = [] ∧
        (rankFieldSets e.2).secondary ≠ [])
    (hafter : ∀ e ∈ after, (rankFieldSets e.2).primary = [] ∧
        (rankFieldSets e.2).secondary ≠ [])
    (hb1 : before.length ≤ 1)
    (hsec : (rankFieldSets fss).secondary ≠ [] → after = []) :
    findWhatToRun (before ++ (t, fss) :: after) = .ok (p, t) := by
  have hrfsp : (rankFieldSets fss).primary ≠ [] := by simp [hp]
  have htail : findLoop after (some (t, rankFieldSets fss)) =
      .ok (t, rankFieldSets fss) := by
    by_cases hs : (rankFieldSets fss).secondary = []
    · exact findLoop_keep after t _ (fun e he => (hafter e he).1) hrfsp hs
    · rw [hsec hs]
      rfl
  rcases before with _ | ⟨b, bs⟩
  · simp only [List.nil_append, findWhatToRun, findLoop]
    rw [htail]
    exact chooseFieldSet_single_primary t _ p hp
  · rcases bs with _ | ⟨b2, bs2⟩
    · obtain ⟨tb, fb⟩ := b
      have hb : (rankFieldSets fb).primary = [] :=
        (hbefore (tb, fb) (List.mem_cons_self _ _)).1
      simp only [List.cons_append, List.nil_append, findWhatToRun, findLoop]
      rw [if_pos ⟨hrfsp, hb⟩, htail]
      exact chooseFieldSet_single_primary t _ p hp
    · exfalso
      simp at hb1

/-- The secondary-only candidate list of the C2 witness. -/
def c2before : List (Target × List RunFieldSet) := [(5, [⟨9, [true]⟩])]

/-- The field-sets of the selected target of the C2 witness: one primary, one
secondary. -/
def c2fss : List RunFieldSet := [⟨1, [false]⟩, ⟨2, [true]⟩]

/-- Witness for C2 (amended) at a concrete selection: a secondary-only candidate
followed by the selected target (one primary and one secondary field-set), with
nothing after it. -/
theorem findWhatToRun_unique_primary_witness :
    findWhatToRun (c2before ++ (7, c2fss) :: []) = .ok (⟨1, [false]⟩, 7) :=
  findWhatToRun_unique_primary c2before [] 7 c2fss ⟨1, [false]⟩
    (by decide) (by decide) (by decide) (by decide) (by decide)

/-- C2 counterexample: target `0` satisfies exactly one primary field-set
(label `0`), with one secondary field-set also on it and a secondary-only
candidate `1`; resolution raises the too-many-targets failure instead of
returning the primary field-set paired with target `0`. -/
theorem findWhatToRun_unique_primary_counterexample :
    findWhatToRun [(0, [⟨0, [false]⟩, ⟨1, [true]⟩]), (1, [⟨2, [true]⟩])] =
      .error .tooManyTargets := rfl

/-- C3 (amended): for two candidate targets, resolution fails with the
too-many-targets error exactly when both have a primary field-set, or both have
a secondary field-set and it is not the case that the second has a primary
field-set while the first has none (the replacement case). In particular a
candidate with only secondary field-sets does cause this failure against a
first candidate that has a primary field-set alongside a secondary one —
the tiers are compared per kind of field-set held, not "primary versus
only-secondary" as the original claim states. -/
theorem findWhatToRun_two_targets_tooMany_iff (t1 t2 : Target)
    (f1 f2 : List RunFieldSet) :
    findWhatToRun [(t1, f1), (t2, f2)] = .error .tooManyTargets ↔
      (((rankFieldSets f2).primary ≠ [] ∧ (rankFieldSets f1).primary ≠ []) ∨
        ((rankFieldSets f2).secondary ≠ [] ∧ (rankFieldSets f1).secondary ≠ [] ∧
          ¬ ((rankFieldSets f2).primary ≠ [] ∧ (rankFieldSets f1).primary = []))) := by
  simp only [findWhatToRun, findLoop]
  by_cases h1 : (rankFieldSets f2).primary ≠ [] ∧ (rankFieldSets f1).primary = []
  · rw [if_pos h1]
    constructor
    · intro h
      exact absurd h (chooseFieldSet_ne_tooMany _ _)
    · rintro (⟨_, hc⟩ | ⟨_, _, hc⟩)
      · exact absurd h1.2 hc
      · exact absurd h1 hc
  · rw [if_neg h1]
    by_cases h2 : ((rankFieldSets f2).primary ≠ [] ∧ (rankFieldSets f1).primary ≠ []) ∨
        ((rankFieldSets f2).secondary ≠ [] ∧ (rankFieldSets f1).secondary ≠ [])
    · rw [if_pos h2]
      constructor
      · intro _
        rcases h2 with hl | hr
        · exact Or.inl hl
        · exact Or.inr ⟨hr.1, hr.2, h1⟩
      · intro _
        rfl
    · rw [if_neg h2]
      constructor
      · intro h
        exact absurd h (chooseFieldSet_ne_tooMany _ _)
      · rintro (hl | ⟨ha, hb, _⟩)
        · exact absurd (Or.inl hl) h2
        · exact absurd (Or.inr ⟨ha, hb⟩) h2

/-- C3 counterexample: candidate `6` has only a secondary field-set, candidate `3`
has a primary field-set (alongside a secondary one), yet resolution fails with
the too-many-targets error — a secondary-only target does cause a failure
against a target holding a primary field-set. -/
theorem findWhatToRun_secondary_vs_primary_counterexample :
    findWhatToRun [(3, [⟨4, [false]⟩, ⟨5, [true]⟩]), (6, [⟨7, [true]⟩])] =
      .error .tooManyTargets := rfl

/-! ### Claim C4: incompatible merged environments abort with the taxonomy error -/

theorem shimLoop_error_val (bash : String)
    (pairs : List (RunnableDecl × RunInSandboxRequest)) (st : ShimState)
    (e : ResolveErr) (h : shimLoop bash pairs st = .error e) :
    e = .incompatibleEnvironments := by
  cases e
  rfl

theorem shimLoop_isOk (bash : String) :
    ∀ (pairs : List (RunnableDecl × RunInSandboxRequest)) (st : ShimState),
    exceptOk (shimLoop bash pairs st) =
      (exceptOk (mergeFrom st.imm
          (pairs.map fun pr => optDict pr.2.immutable_input_digests)) &&
        exceptOk (mergeFrom st.caches
          (pairs.map fun pr => optDict pr.2.append_only_caches))) := by
  intro pairs
  induction pairs with
  | nil => intro st; rfl
  | cons pr rest ih =>
    intro st
    obtain ⟨dep, r⟩ := pr
    simp only [shimLoop, List.map_cons, mergeFrom]
    rcases h1 : safeUpdate st.imm (optDict r.immutable_input_digests) with e1 | imm2
    · simp [exceptOk]
    · rcases h2 : safeUpdate st.caches (optDict r.append_only_caches) with e2 | caches2
      · simp [exceptOk]
      · exact ih _

theorem zip_map_snd {A B C : Type} (l1 : List A) (l2 : List B) (f : B → C)
    (hlen : l1.length = l2.length) :
    (l1.zip l2).map (fun pr => f pr.2) = l2.map f := by
  induction l1 generalizing l2 with
  | nil =>
    cases l2 with
    | nil => rfl
    | cons b bs => simp at hlen
  | cons a as ih =>
    cases l2 with
    | nil => simp at hlen
    | cons b bs =>
      simp only [List.zip_cons_cons, List.map_cons]
      rw [ih bs (by simpa using hlen)]

/-- C4: whenever the run specifications of two runnable dependencies bind a shared
immutable-input-digest or append-only-cache key to two different values,
`_resolve_runnable_dependencies` aborts with the taxonomy error naming mutually
incompatible environments — and, the result being an error, no
`RunnableDependencies` value and no merged digest is produced. -/
theorem resolveRunnableDependencies_conflict_error
    (bash : String) (deps : List RunnableDecl)
    (runnables : List RunInSandboxRequest)
    (hlen : deps.length = runnables.length)
    (hnodup : ∀ r ∈ runnables, keysNodup (optDict r.immutable_input_digests) ∧
        keysNodup (optDict r.append_only_caches))
    (hconf : ¬ Compatible (runnables.map fun r => optDict r.immutable_input_digests)
        ∨ ¬ Compatible (runnables.map fun r => optDict r.append_only_caches)) :
    resolveRunnableDependencies bash deps runnables =
      .error .incompatibleEnvironments := by
  have hmap1 : (deps.zip runnables).map
      (fun pr => optDict pr.2.immutable_input_digests) =
      runnables.map fun r => optDict r.immutable_input_digests :=
    zip_map_snd deps runnables (fun r => optDict r.immutable_input_digests) hlen
  have hmap2 : (deps.zip runnables).map
      (fun pr => optDict pr.2.append_only_caches) =
      runnables.map fun r => optDict r.append_only_caches :=
    zip_map_snd deps runnables (fun r => optDict r.append_only_caches) hlen
  have hnd1 : ∀ m ∈ runnables.map (fun r => optDict r.immutable_input_digests),
      keysNodup m := by
    intro m hm
    obtain ⟨r, hr, he⟩ := List.mem_map.mp hm
    rw [← he]
    exact (hnodup r hr).1
  have hnd2 : ∀ m ∈ runnables.map (fun r => optDict r.append_only_caches),
      keysNodup m := by
    intro m hm
    obtain ⟨r, hr, he⟩ := List.mem_map.mp hm
    rw [← he]
    exact (hnodup r hr).2
  have hnotok : exceptOk (shimLoop bash (deps.zip runnables) ⟨[], [], [], []⟩) =
      false := by
    rw [shimLoop_isOk bash (deps.zip runnables) ⟨[], [], [], []⟩]
    show (exceptOk (mergeFrom [] _) && exceptOk (mergeFrom [] _)) = false
    rw [hmap1, hmap2]
    rcases hconf with hc | hc
    · rcases hb : exceptOk (mergeFrom []
          (runnables.map fun r => optDict r.immutable_input_digests)) with _ | _
      · simp [hb]
      · exact absurd ((mergeAll_isOk_iff hnd1).mp hb) hc
    · rcases hb : exceptOk (mergeFrom []
          (runnables.map fun r => optDict r.append_only_caches)) with _ | _
      · simp [hb]
      · exact absurd ((mergeAll_isOk_iff hnd2).mp hb) hc
  rcases hr : shimLoop bash (deps.zip runnables) ⟨[], [], [], []⟩ with e | st
  · have he := shimLoop_error_val bash _ _ e hr
    subst he
    simp only [resolveRunnableDependencies, hr]
  · rw [hr] at hnotok
    simp [exceptOk] at hnotok

/-- First runnable of the C4 witness: binds key `k` to a digest holding file `a`. -/
def c4r1 : RunInSandboxRequest :=
  ⟨[], [], [], some [("k", [⟨"a", "", false⟩])], none⟩

/-- Second runnable of the C4 witness: binds key `k` to a digest holding file
`b`, conflicting with the first runnable. -/
def c4r2 : RunInSandboxRequest :=
  ⟨[], [], [], some [("k", [⟨"b", "", false⟩])], none⟩

/-- Witness for C4: two runnables binding the shared immutable-input-digest key
`k` to different digests make resolution abort with the taxonomy error. -/
theorem resolveRunnableDependencies_conflict_witness :
    resolveRunnableDependencies "/bin/bash"
      [⟨"one", ":one"⟩, ⟨"two", ":two"⟩] [c4r1, c4r2] =
      .error .incompatibleEnvironments :=
  resolveRunnableDependencies_conflict_error "/bin/bash"
    [⟨"one", ":one"⟩, ⟨"two", ":two"⟩] [c4r1, c4r2]
    (by decide) (by decide) (Or.inl (by decide))

/-! ### Claim C9: adjusted output digests are root-relative -/

theorem toList_append (a b : String) : (a ++ b).toList = a.toList ++ b.toList :=
  String.data_append a b

theorem strMk_toList (s : String) : String.mk s.toList = s := by
  cases s
  rfl

theorem removePrefix_file (rod q : String) (f : FileContent)
    (hf : f.path = rod ++ "/" ++ q) :
    (match dropPre (rod ++ "/").toList f.path.toList with
      | some rest => { f with path := String.mk rest }
      | none => f) = { f with path := q } := by
  rw [hf, toList_append (rod ++ "/") q, dropPre_append]
  simp [strMk_toList]

/-- C9: for every completed adhoc process whose raw output paths all live under
the resolved root-output prefix — `root_output_directory` resolved relative to
the resolved working directory — the adjusted digest handed back by
`run_adhoc_process` is the raw output digest with that prefix stripped:
re-prefixing each returned path recovers exactly the raw paths, and no returned
path carries the prefix component any more, so the returned digest is
root-relative. -/
theorem runAdhocProcess_output_root_relative (request : AdhocProcessRequest)
    (res : FallibleProcessResult)
    (hrod : resolvedRootOutput request ≠ "")
    (hunder : ∀ f ∈ res.output_digest, ∃ q : String,
      f.path = resolvedRootOutput request ++ "/" ++ q ∧
        hasPre (resolvedRootOutput request ++ "/") q = false) :
    (runAdhocProcess request res).2.adjusted_digest =
      removePrefixDigest res.output_digest (resolvedRootOutput request)
    ∧ (runAdhocProcess request res).2.adjusted_digest.map
        (fun f => resolvedRootOutput request ++ "/" ++ f.path) =
        res.output_digest.map FileContent.path
    ∧ ∀ f2 ∈ (runAdhocProcess request res).2.adjusted_digest,
        hasPre (resolvedRootOutput request ++ "/") f2.path = false := by
  have hadj : (runAdhocProcess request res).2.adjusted_digest =
      removePrefixDigest res.output_digest (resolvedRootOutput request) := rfl
  have hmapform : removePrefixDigest res.output_digest (resolvedRootOutput request) =
      res.output_digest.map fun f =>
        match dropPre (resolvedRootOutput request ++ "/").toList f.path.toList with
        | some rest => { f with path := String.mk rest }
        | none => f := by
    simp only [removePrefixDigest]
    rw [if_neg hrod]
  refine ⟨hadj, ?_, ?_⟩
  · rw [hadj, hmapform, List.map_map]
    apply List.map_congr_left
    intro f hf
    obtain ⟨q, hq, _⟩ := hunder f hf
    simp only [Function.comp]
    rw [removePrefix_file _ q f hq, hq]
  · intro f2 hf2
    rw [hadj, hmapform] at hf2
    obtain ⟨f, hf, he⟩ := List.mem_map.mp hf2
    obtain ⟨q, hq, hqfree⟩ := hunder f hf
    rw [removePrefix_file _ q f hq] at he
    rw [← he]
    exact hqfree

/-- The concrete request of the C9 witness: working directory `.` and root
output `.` for owning address `src/app`, so the resolved prefix is `src/app`. -/
def reqC9 : AdhocProcessRequest :=
  ⟨"c9", ⟨"src/app"⟩, ".", ".", ["x"], none, [], none, none,
    [], [], [], none, none, false⟩

/-- The concrete completed result of the C9 witness: one output file written
under the `src/app` prefix. -/
def resC9 : FallibleProcessResult :=
  ⟨0, "", "", [⟨"src/app/out.txt", "data", false⟩]⟩

/-- Witness for C9: the single raw output `src/app/out.txt` comes back as
`out.txt`. -/
theorem runAdhocProcess_output_root_relative_witness :
    (runAdhocProcess reqC9 resC9).2.adjusted_digest =
      removePrefixDigest resC9.output_digest (resolvedRootOutput reqC9)
    ∧ (runAdhocProcess reqC9 resC9).2.adjusted_digest.map
        (fun f => resolvedRootOutput reqC9 ++ "/" ++ f.path) =
        resC9.output_digest.map FileContent.path
    ∧ ∀ f2 ∈ (runAdhocProcess reqC9 resC9).2.adjusted_digest,
        hasPre (resolvedRootOutput reqC9 ++ "/") f2.path = false :=
  runAdhocProcess_output_root_relative reqC9 resC9 (by decide)
    (by
      intro f hf
      simp only [resC9, List.mem_singleton] at hf
      subst hf
      exact ⟨"out.txt", by decide, by decide⟩)

/-! ### Claim C10: the shim digest is registered by plain assignment -/

/-- The wrapper-script files the shim builder synthesizes: exactly one
executable file per runnable declaration, at the name of the declaration. -/
def shimFilesOf (bash : String) (deps : List RunnableDecl)
    (runnables : List RunInSandboxRequest) : List FileContent :=
  (deps.zip runnables).map fun pr =>
    ⟨pr.1.name, runnableDependencyShim bash pr.2.args pr.2.extra_env, true⟩

theorem shimLoop_ok_shims (bash : String) :
    ∀ (pairs : List (RunnableDecl × RunInSandboxRequest)) (st st2 : ShimState),
    shimLoop bash pairs st = .ok st2 →
    st2.shims = st.shims ++ pairs.map fun pr =>
      (⟨pr.1.name, runnableDependencyShim bash pr.2.args pr.2.extra_env, true⟩ :
        FileContent) := by
  intro pairs
  induction pairs with
  | nil =>
    intro st st2 h
    simp only [shimLoop] at h
    injection h with h2
    rw [← h2]
    simp
  | cons pr rest ih =>
    intro st st2 h
    obtain ⟨dep, r⟩ := pr
    simp only [shimLoop] at h
    split at h
    · exact absurd h (by simp)
    · split at h
      · exact absurd h (by simp)
      · have hrec := ih _ st2 h
        rw [hrec]
        simp [List.append_assoc]

/-- The stable shim path component: `shims_` followed by the fingerprint of the
wrapper-script digest. -/
def shimKey (bash : String) (deps : List RunnableDecl)
    (runnables : List RunInSandboxRequest) : String :=
  "shims_" ++ digestFingerprint (createDigest (shimFilesOf bash deps runnables))

/-- C10: after the conflict-checked merge of the maps of all runnables,
`_resolve_runnable_dependencies` registers the wrapper-script digest under the
key `shims_<fingerprint>` by plain assignment, bypassing `_safe_update`: even
when the immutable-input-digests of some runnable already bind that exact key to a
different digest, resolution still succeeds and the returned
`RunnableDependencies` maps the key to the wrapper-script digest, silently
replacing the binding of the runnable instead of reporting the
incompatible-environment error. -/
theorem resolveRunnableDependencies_shim_key_bypasses_conflict
    (bash : String) (deps : List RunnableDecl)
    (runnables : List RunInSandboxRequest)
    (r : RunInSandboxRequest) (hr : r ∈ runnables) (dprev : Digest)
    (hbind : dget (optDict r.immutable_input_digests)
        (shimKey bash deps runnables) = some dprev)
    (hne : dprev ≠ createDigest (shimFilesOf bash deps runnables))
    (hok : exceptOk (shimLoop bash (deps.zip runnables) ⟨[], [], [], []⟩) = true) :
    ∃ d rd, resolveRunnableDependencies bash deps runnables = .ok (d, rd)
      ∧ rd.path_component = shimKey bash deps runnables
      ∧ dget rd.immutable_input_digests (shimKey bash deps runnables) =
          some (createDigest (shimFilesOf bash deps runnables)) := by
  rcases hl : shimLoop bash (deps.zip runnables) ⟨[], [], [], []⟩ with e | st
  · rw [hl] at hok
    simp [exceptOk] at hok
  · have hsh := shimLoop_ok_shims bash _ _ st hl
    have hshim : st.shims = shimFilesOf bash deps runnables := by
      rw [hsh]
      simp [shimFilesOf]
    refine ⟨mergeDigests st.digests,
      ⟨shimKey bash deps runnables,
        dset st.imm (shimKey bash deps runnables)
          (createDigest (shimFilesOf bash deps runnables)),
        st.caches⟩, ?_, rfl, ?_⟩
    · simp only [resolveRunnableDependencies, hl]
      rw [hshim]
      rfl
    · rw [dget_dset]
      simp

/-- A runnable run-spec sharing name-relevant data with the actual runnable of
the C10 witness, used to compute the shim key without self-reference. -/
def c10base : RunInSandboxRequest := ⟨[], ["/bin/fmt"], [], none, none⟩

/-- The shim key of the C10 witness (it depends only on the declaration name,
argv and extra environment, not on the immutable-input-digest maps). -/
def c10key : String := shimKey "/bin/bash" [⟨"fmt", ":formatter"⟩] [c10base]

/-- The C10 witness runnable: its immutable-input-digests already bind the shim
key to a different digest. -/
def c10run : RunInSandboxRequest :=
  ⟨[], ["/bin/fmt"], [], some [(c10key, [⟨"other", "", false⟩])], none⟩

/-- Witness for C10: resolution succeeds and silently rebinds the shim key to
the wrapper-script digest. -/
theorem resolveRunnableDependencies_shim_key_bypass_witness :
    ∃ d rd, resolveRunnableDependencies "/bin/bash" [⟨"fmt", ":formatter"⟩] [c10run]
        = .ok (d, rd)
      ∧ rd.path_component = shimKey "/bin/bash" [⟨"fmt", ":formatter"⟩] [c10run]
      ∧ dget rd.immutable_input_digests
          (shimKey "/bin/bash" [⟨"fmt", ":formatter"⟩] [c10run]) =
          some (createDigest (shimFilesOf "/bin/bash" [⟨"fmt", ":formatter"⟩] [c10run])) :=
  resolveRunnableDependencies_shim_key_bypasses_conflict
    "/bin/bash" [⟨"fmt", ":formatter"⟩] [c10run] c10run (by decide)
    [⟨"other", "", false⟩] (by decide) (by decide) (by decide)

/-! ### Claim C8: shim synthesis — `dedent` computation lemmas -/

theorem lineSplit_append (xs : List Char) (ys : List Char) (h : nlChar ∉ xs) :
    lineSplit (xs ++ nlChar :: ys) = xs :: lineSplit ys := by
  induction xs with
  | nil => simp [lineSplit]
  | cons c cs ih =>
    have hc : ¬ c = nlChar := fun he => h (he ▸ List.mem_cons_self c cs)
    have hcs : nlChar ∉ cs := fun hm => h (List.mem_cons_of_mem _ hm)
    simp only [List.cons_append, lineSplit, if_neg hc, List.append_eq]
    rw [ih hcs]

theorem lineSplit_no_nl (xs : List Char) (h : nlChar ∉ xs) :
    lineSplit xs = [xs] := by
  induction xs with
  | nil => rfl
  | cons c cs ih =>
    have hc : ¬ c = nlChar := fun he => h (he ▸ List.mem_cons_self c cs)
    have hcs : nlChar ∉ cs := fun hm => h (List.mem_cons_of_mem _ hm)
    simp only [lineSplit, if_neg hc]
    rw [ih hcs]

theorem not_mem_append2 {c : Char} {a b : List Char} (ha : c ∉ a) (hb : c ∉ b) :
    c ∉ a ++ b := by
  intro h
  rcases List.mem_append.mp h with h | h
  · exact ha h
  · exact hb h

theorem isWsOnly_false_of_mem {l : List Char} {c : Char} (hc : c ∈ l)
    (hcind : isIndentChar c = false) : isWsOnly l = false := by
  cases hall : l.all isIndentChar
  · simp [isWsOnly, hall]
  · exfalso
    have h2 := List.all_eq_true.mp hall c hc
    rw [hcind] at h2
    exact Bool.false_ne_true h2

theorem hasContent_true_of_mem {l : List Char} {c : Char} (hc : c ∈ l)
    (hcind : isIndentChar c = false) : hasContent l = true := by
  apply List.any_eq_true.mpr
  exact ⟨c, hc, by rw [hcind]; rfl⟩

theorem takeWhile_all_append (p : Char → Bool) (a b : List Char)
    (ha : a.all p = true) : (a ++ b).takeWhile p = a ++ b.takeWhile p := by
  induction a with
  | nil => simp
  | cons x xs ih =>
    rw [List.all_cons, Bool.and_eq_true] at ha
    have hx : p x = true := ha.1
    have hxs : xs.all p = true := ha.2
    simp only [List.cons_append, List.takeWhile_cons, hx, if_true]
    rw [ih hxs]

theorem leadingWs_ind8_cons (c : Char) (cs : List Char)
    (hc : isIndentChar c = false) : leadingWs (ind8 ++ c :: cs) = ind8 := by
  unfold leadingWs
  rw [takeWhile_all_append isIndentChar ind8 (c :: cs) (by decide)]
  simp [List.takeWhile_cons, hc]

theorem isPrefixOf_append_self (a rest : List Char) :
    a.isPrefixOf (a ++ rest) = true :=
  List.isPrefixOf_iff_prefix.mpr (List.prefix_append a rest)

theorem strJoin_cons_toList (sep x : String) (xs : List String) :
    ∃ t, (strJoin sep (x :: xs)).toList = x.toList ++ t := by
  cases xs with
  | nil => exact ⟨[], by simp [strJoin]⟩
  | cons y ys =>
    refine ⟨sep.toList ++ (strJoin sep (y :: ys)).toList, ?_⟩
    show (x ++ sep ++ strJoin sep (y :: ys)).toList = _
    rw [toList_append, toList_append, List.append_assoc]

/-- The export block is empty or starts with the non-indentation character `e`. -/
theorem shimEnvStr_head (env : Dict String String) :
    (shimEnvStr env).toList = [] ∨
      ∃ c cs, (shimEnvStr env).toList = c :: cs ∧ isIndentChar c = false := by
  cases env with
  | nil => exact Or.inl rfl
  | cons kv rest =>
    right
    obtain ⟨t, ht⟩ := strJoin_cons_toList "\n"
      ("export " ++ shlexQuote kv.1 ++ "=" ++ shlexQuote kv.2)
      (rest.map fun kv2 => "export " ++ shlexQuote kv2.1 ++ "=" ++ shlexQuote kv2.2)
    have hs : (shimEnvStr (kv :: rest)).toList =
        ("export " ++ shlexQuote kv.1 ++ "=" ++ shlexQuote kv.2).toList ++ t := by
      unfold shimEnvStr
      rw [List.map_cons]
      exact ht
    have lit : "export ".toList = 'e' :: "xport ".toList := rfl
    refine ⟨'e', "xport ".toList ++ ((shlexQuote kv.1).toList ++
      ("=".toList ++ ((shlexQuote kv.2).toList ++ t))), ?_, by decide⟩
    rw [hs]
    simp [toList_append, lit]

/-- The computation of `textwrap.dedent` on the formatted shim template: as long
as the interpolated shebang tail, export block and exec line are free of
newlines (and the export block is empty or starts at a non-indentation
character), the common eight-space margin is stripped from every line and the
whitespace-only lines are emptied. -/
theorem dedent_shimRaw (bash env_str binary : String)
    (hb : nlChar ∉ bash.toList) (he : nlChar ∉ env_str.toList)
    (hx : nlChar ∉ binary.toList)
    (hehead : env_str.toList = [] ∨
      ∃ c cs, env_str.toList = c :: cs ∧ isIndentChar c = false) :
    dedent (shimRaw bash env_str binary) =
      "#!".toList ++ bash.toList ++ nlChar ::
        (env_str.toList ++ nlChar ::
          ("exec ".toList ++ binary.toList ++ " \"$@\"".toList ++ [nlChar])) := by
  have lit1 : "#!".toList = ['#', '!'] := rfl
  have lit2 : "exec ".toList = ['e', 'x', 'e', 'c', ' '] := rfl
  have lit3 : " \"$@\"".toList = [' ', '"', '$', '@', '"'] := rfl
  have hind_nl : nlChar ∉ ind8 := by decide
  have h1 : nlChar ∉ (ind8 ++ ['#', '!']) ++ bash.toList :=
    not_mem_append2 (by decide) hb
  have h2 : nlChar ∉ ind8 ++ env_str.toList :=
    not_mem_append2 hind_nl he
  have h3 : nlChar ∉
      ((ind8 ++ ['e', 'x', 'e', 'c', ' ']) ++ binary.toList) ++
        [' ', '"', '$', '@', '"'] :=
    not_mem_append2 (not_mem_append2 (by decide) hx) (by decide)
  have hraw : shimRaw bash env_str binary =
      ((ind8 ++ ['#', '!']) ++ bash.toList) ++ nlChar ::
        ((ind8 ++ env_str.toList) ++ nlChar ::
          ((((ind8 ++ ['e', 'x', 'e', 'c', ' ']) ++ binary.toList) ++
              [' ', '"', '$', '@', '"']) ++ nlChar :: ind8)) := by
    simp [shimRaw, lit1, lit2, lit3]
  have hsplit : lineSplit (shimRaw bash env_str binary) =
      [(ind8 ++ ['#', '!']) ++ bash.toList,
        ind8 ++ env_str.toList,
        ((ind8 ++ ['e', 'x', 'e', 'c', ' ']) ++ binary.toList) ++
          [' ', '"', '$', '@', '"'],
        ind8] := by
    rw [hraw, lineSplit_append _ _ h1, lineSplit_append _ _ h2,
      lineSplit_append _ _ h3, lineSplit_no_nl ind8 hind_nl]
  have hA1 : ('#' : Char) ∈ (ind8 ++ ['#', '!']) ++ bash.toList := by simp
  have hws1 : isWsOnly ((ind8 ++ ['#', '!']) ++ bash.toList) = false :=
    isWsOnly_false_of_mem hA1 (by decide)
  have hct1 : hasContent ((ind8 ++ ['#', '!']) ++ bash.toList) = true :=
    hasContent_true_of_mem hA1 (by decide)
  have hA3 : ('e' : Char) ∈
      ((ind8 ++ ['e', 'x', 'e', 'c', ' ']) ++ binary.toList) ++
        [' ', '"', '$', '@', '"'] := by simp
  have hws3 : isWsOnly
      (((ind8 ++ ['e', 'x', 'e', 'c', ' ']) ++ binary.toList) ++
        [' ', '"', '$', '@', '"']) = false :=
    isWsOnly_false_of_mem hA3 (by decide)
  have hct3 : hasContent
      (((ind8 ++ ['e', 'x', 'e', 'c', ' ']) ++ binary.toList) ++
        [' ', '"', '$', '@', '"']) = true :=
    hasContent_true_of_mem hA3 (by decide)
  have hl1shape : (ind8 ++ ['#', '!']) ++ bash.toList =
      ind8 ++ '#' :: '!' :: bash.toList := by simp
  have hlw1 : leadingWs ((ind8 ++ ['#', '!']) ++ bash.toList) = ind8 := by
    rw [hl1shape]
    exact leadingWs_ind8_cons _ _ (by decide)
  have hl3shape : ((ind8 ++ ['e', 'x', 'e', 'c', ' ']) ++ binary.toList) ++
      [' ', '"', '$', '@', '"'] =
      ind8 ++ 'e' :: ('x' :: 'e' :: 'c' :: ' ' ::
        (binary.toList ++ [' ', '"', '$', '@', '"'])) := by simp
  have hlw3 : leadingWs (((ind8 ++ ['e', 'x', 'e', 'c', ' ']) ++ binary.toList) ++
      [' ', '"', '$', '@', '"']) = ind8 := by
    rw [hl3shape]
    exact leadingWs_ind8_cons _ _ (by decide)
  have hcp : commonPre ind8 ind8 = ind8 := by decide
  have hmnonempty : ind8.isEmpty = false := by decide
  have hprenil : ind8.isPrefixOf ([] : List Char) = false := by decide
  have hstrip : ∀ rest : List Char,
      (if ind8.isPrefixOf (ind8 ++ rest) then (ind8 ++ rest).drop ind8.length
        else ind8 ++ rest) = rest := by
    intro rest
    simp [isPrefixOf_append_self, List.drop_left]
  rcases hehead with hE | ⟨c, cs, hEeq, hcind⟩
  · rw [hE] at hsplit ⊢
    have hsplit2 : lineSplit (shimRaw bash env_str binary) =
        [(ind8 ++ ['#', '!']) ++ bash.toList,
          ind8,
          ((ind8 ++ ['e', 'x', 'e', 'c', ' ']) ++ binary.toList) ++
            [' ', '"', '$', '@', '"'],
          ind8] := by
      rw [hsplit]
      simp
    have hwsind : isWsOnly ind8 = true := by decide
    have hctnil : hasContent ([] : List Char) = false := rfl
    simp only [dedent, hsplit2, List.map_cons, List.map_nil, hws1, hws3, hwsind,
      Bool.false_eq_true, if_false, if_true, List.filter_cons, List.filter_nil,
      hct1, hct3, hctnil, List.foldl_cons, List.foldl_nil, hcp, hmnonempty,
      hlw1, hlw3]
    rw [hl1shape, hl3shape]
    simp only [List.map_cons, List.map_nil, hstrip, hprenil,
      Bool.false_eq_true, if_false]
    simp [lineJoin, lit1, lit2, lit3]
  · have hA2 : c ∈ ind8 ++ env_str.toList := by
      rw [hEeq]
      simp
    have hws2 : isWsOnly (ind8 ++ env_str.toList) = false :=
      isWsOnly_false_of_mem hA2 hcind
    have hct2 : hasContent (ind8 ++ env_str.toList) = true :=
      hasContent_true_of_mem hA2 hcind
    have hlw2 : leadingWs (ind8 ++ env_str.toList) = ind8 := by
      rw [hEeq]
      exact leadingWs_ind8_cons _ _ hcind
    have hwsind : isWsOnly ind8 = true := by decide
    have hctnil : hasContent ([] : List Char) = false := rfl
    simp only [dedent, hsplit, List.map_cons, List.map_nil, hws1, hws2, hws3,
      hwsind, Bool.false_eq_true, if_false, if_true, List.filter_cons,
      List.filter_nil, hct1, hct2, hct3, hctnil, List.foldl_cons,
      List.foldl_nil, hcp, hmnonempty, hlw1, hlw2, hlw3]
    rw [hl1shape, hl3shape]
    simp only [List.map_cons, List.map_nil, hstrip, hprenil,
      Bool.false_eq_true, if_false]
    simp [lineJoin, lit1, lit2, lit3]

theorem strMk_eq_of (L : List Char) (R : String) (h : R.toList = L) :
    String.mk L = R := by
  rw [← h]
  exact strMk_toList R

/-- The shim content at String level, for newline-free interpolations. -/
theorem runnableDependencyShim_content (bash : String) (args : List String)
    (env : Dict String String)
    (hb : nlChar ∉ bash.toList) (he : nlChar ∉ (shimEnvStr env).toList)
    (hx : nlChar ∉ (shimBinary args).toList) :
    runnableDependencyShim bash args env =
      "#!" ++ bash ++ "\n" ++ shimEnvStr env ++ "\n" ++ "exec " ++
        shimBinary args ++ " \"$@\"" ++ "\n" := by
  unfold runnableDependencyShim
  rw [dedent_shimRaw bash (shimEnvStr env) (shimBinary args) hb he hx
    (shimEnvStr_head env)]
  apply strMk_eq_of
  have litn : "\n".toList = [nlChar] := rfl
  simp [toList_append, litn]
  rfl

/-- C8 (amended): the shim builder synthesizes exactly one executable wrapper
script per runnable declaration, placed under the name of that declaration and
registered under the stable shim path component; whenever the interpolated
shebang tail, export block and exec line contain no newline — in particular
with at most one extra environment variable and newline-free quoted values —
the wrapper content is the shebang line, the export block (an empty line when
there are no extra environment variables), and the `exec` of the shell-quoted
argv followed by `"$@"`; for the declaration `fmt` with argv
`["/bin/fmt", "-w"]` and empty extra environment the shim content is exactly
`#!/bin/bash`, a blank line, and `exec /bin/fmt -w "$@"`. With a multi-line
export block (two or more extra environment variables) the
eight-space margin is not stripped, contrary to the original claim. -/
theorem shim_builder_per_declaration :
    (∀ (bash : String) (deps : List RunnableDecl)
        (runnables : List RunInSandboxRequest),
      exceptOk (shimLoop bash (deps.zip runnables) ⟨[], [], [], []⟩) = true →
      ∃ d rd, resolveRunnableDependencies bash deps runnables = .ok (d, rd)
        ∧ dget rd.immutable_input_digests rd.path_component =
            some (createDigest (shimFilesOf bash deps runnables)))
    ∧ (∀ (bash : String) (args : List String) (env : Dict String String),
        nlChar ∉ bash.toList → nlChar ∉ (shimEnvStr env).toList →
        nlChar ∉ (shimBinary args).toList →
        runnableDependencyShim bash args env =
          "#!" ++ bash ++ "\n" ++ shimEnvStr env ++ "\n" ++ "exec " ++
            shimBinary args ++ " \"$@\"" ++ "\n")
    ∧ runnableDependencyShim "/bin/bash" ["/bin/fmt", "-w"] [] =
        "#!/bin/bash\n\nexec /bin/fmt -w \"$@\"\n" := by
  refine ⟨?_, runnableDependencyShim_content, by decide⟩
  intro bash deps runnables hok
  rcases hl : shimLoop bash (deps.zip runnables) ⟨[], [], [], []⟩ with e | st
  · rw [hl] at hok
    simp [exceptOk] at hok
  · have hsh := shimLoop_ok_shims bash _ _ st hl
    have hshim : st.shims = shimFilesOf bash deps runnables := by
      rw [hsh]
      simp [shimFilesOf]
    refine ⟨mergeDigests st.digests,
      ⟨"shims_" ++ digestFingerprint (createDigest (shimFilesOf bash deps runnables)),
        dset st.imm
          ("shims_" ++ digestFingerprint (createDigest (shimFilesOf bash deps runnables)))
          (createDigest (shimFilesOf bash deps runnables)),
        st.caches⟩, ?_, ?_⟩
    · simp only [resolveRunnableDependencies, hl]
      rw [hshim]
    · rw [dget_dset]
      simp

/-- Witness for C8 (amended) at the `fmt` scenario of the spec: the shim digest is
registered under the shim path with exactly one wrapper named `fmt`, and the
content equation holds for the newline-free scenario inputs. -/
theorem shim_builder_per_declaration_witness :
    (∃ d rd, resolveRunnableDependencies "/bin/bash" [⟨"fmt", ":formatter"⟩]
        [⟨[], ["/bin/fmt", "-w"], [], none, none⟩] = .ok (d, rd)
      ∧ dget rd.immutable_input_digests rd.path_component =
          some (createDigest (shimFilesOf "/bin/bash" [⟨"fmt", ":formatter"⟩]
            [⟨[], ["/bin/fmt", "-w"], [], none, none⟩])))
    ∧ runnableDependencyShim "/bin/bash" ["/bin/fmt", "-w"] [] =
        "#!" ++ "/bin/bash" ++ "\n" ++ shimEnvStr [] ++ "\n" ++ "exec " ++
          shimBinary ["/bin/fmt", "-w"] ++ " \"$@\"" ++ "\n" :=
  ⟨shim_builder_per_declaration.1 "/bin/bash" [⟨"fmt", ":formatter"⟩]
      [⟨[], ["/bin/fmt", "-w"], [], none, none⟩] (by decide),
    shim_builder_per_declaration.2.1 "/bin/bash" ["/bin/fmt", "-w"] []
      (by decide) (by decide) (by decide)⟩

/-- C8 counterexample: with two extra environment variables the export block is
multi-line, the common margin of the formatted template degenerates to empty and
`dedent` strips nothing — the wrapper keeps the eight-space indentation and its
first line is not a shebang line, contrary to the content description of the claim. -/
theorem runnableDependencyShim_two_env_counterexample :
    runnableDependencyShim "/bin/sh" ["x"] [("A", "1"), ("B", "2")] =
      "        #!/bin/sh\n        export A=1\nexport B=2\n        exec x \"$@\"\n"
    ∧ strStartsWith
        (runnableDependencyShim "/bin/sh" ["x"] [("A", "1"), ("B", "2")])
        "#!" = false := by
  constructor
  · decide
  · decide

end PantsAdhoc
